import Mathlib

/-!
Verification of src/MichaelScottLockFreeQueue.cpp, a Michael-Scott lock-free
FIFO queue.

The embedding below gives the queue a single-threaded (sequential) semantics:
there is one evolving `QueueState`, and every atomic `load` / CAS of the C++
code reads or updates that state directly.  Heap memory is a partial map from
addresses (`Nat`) to nodes; `new` is modelled by a monotone allocation counter
(each allocation returns a fresh address), `delete` removes the binding, and a
dereference of a null or unmapped address yields `none` (undefined behaviour in
the source).  The retry loops of `enqueue`/`dequeue` are given explicit fuel;
running out of fuel also yields `none`.

C++ `int` generation counters are modelled as unbounded `Int` (signed overflow
is undefined behaviour in the source, so no wraparound discipline is modelled).
-/

namespace MSQueue

/-- Tagged pointer, from `struct NodePointer` (lines 50-62 of the source):
`ptr` is the node reference (`none` = `nullptr`), `count` is the generation
counter.  Equality (`operator==`, lines 64-67) requires both fields to match,
which is exactly the derived structure equality. -/
structure NodePointer where
  ptr : Option Nat
  count : Int
deriving DecidableEq

/-- One linked-list node, from `struct Node` (lines 37-47): a value and a
tagged pointer to the next node. -/
structure Node (T : Type) where
  value : T
  next : NodePointer

/-- The whole mutable state seen by the queue code: the heap of allocated
nodes, the allocation counter, and the two shared fields `_head` and `_tail`
of `class Queue` (lines 73-74). -/
structure QueueState (T : Type) where
  heap : Nat → Option (Node T)
  nextAlloc : Nat
  head : NodePointer
  tail : NodePointer

variable {T : Type}

/-- Heap write at address `a`. -/
def heapUpdate (h : Nat → Option (Node T)) (a : Nat) (n : Node T) :
    Nat → Option (Node T) :=
  fun x => if x = a then some n else h x

/-- Heap deallocation (`delete`) at address `a`. -/
def heapFree (h : Nat → Option (Node T)) (a : Nat) : Nat → Option (Node T) :=
  fun x => if x = a then none else h x

/-- `atomic_compare_exchange_strong` on a tagged-pointer cell: if the cell
equals the expected value it is replaced by the desired value and the call
reports success; otherwise the cell is unchanged.  The second component is the
resulting cell content. -/
def cas (cell expected desired : NodePointer) : Bool × NodePointer :=
  if cell = expected then (true, desired) else (false, cell)

/-- `NodePointer::operator=(Node<T>*)` (lines 58-61): writes only the `ptr`
field, leaving `count` at whatever the destination previously held. -/
def NodePointer.assignPtr (tp : NodePointer) (p : Option Nat) : NodePointer :=
  { tp with ptr := p }

/-- Desired value of the link CAS in `enqueue` (line 107):
`NodePointer<T>(node, next.count + 1)`. -/
def linkDesired (nodeAddr : Nat) (next : NodePointer) : NodePointer :=
  ⟨some nodeAddr, next.count + 1⟩

/-- Desired value of the cooperative tail-advance CAS in `enqueue` (line 115)
and `dequeue` (line 151): `NodePointer<T>(next.ptr, tail.count + 1)`. -/
def tailAdvanceDesired (next tail : NodePointer) : NodePointer :=
  ⟨next.ptr, tail.count + 1⟩

/-- Desired value of the post-loop tail swing CAS in `enqueue` (line 121):
`NodePointer<T>(node, tail.count + 1)`. -/
def tailSwingDesired (nodeAddr : Nat) (tail : NodePointer) : NodePointer :=
  ⟨some nodeAddr, tail.count + 1⟩

/-- Desired value of the head-advance CAS in `dequeue` (line 160):
`NodePointer<T>(next.ptr, head.count + 1)`. -/
def headAdvanceDesired (next head : NodePointer) : NodePointer :=
  ⟨next.ptr, head.count + 1⟩

/-- `Queue::Queue()` (lines 78-85): allocate one sentinel node with
`new Node<T>()` and point both `_head` and `_tail` at it with generation `0`.
`Node()` (line 45) is a do-nothing constructor, so the sentinel's `value`
member is uninitialized, and its `next` member is default-constructed by
`NodePointer()` (line 56), which sets `ptr = nullptr` but leaves `count`
uninitialized.  The indeterminate contents of those two uninitialized members
are the parameters `v0` and `c0`.  The sentinel is given address `0`. -/
def initState (T : Type) (c0 : Int) (v0 : T) : QueueState T :=
  { heap := heapUpdate (fun _ => none) 0 ⟨v0, ⟨none, c0⟩⟩
    nextAlloc := 1
    head := ⟨some 0, 0⟩
    tail := ⟨some 0, 0⟩ }

/-- The `while (true)` retry loop of `Queue::enqueue` (lines 94-118), with
explicit fuel.  `nodeAddr` is the address of the node allocated at line 90.
Returns the state together with the final value of the local variable `tail`
(used by the post-loop tail swing at line 121).  In this sequential semantics
the consistency re-check of line 101 compares the snapshot with itself. -/
def enqueueLoop (fuel : Nat) (s : QueueState T) (nodeAddr : Nat) :
    Option (QueueState T × NodePointer) :=
  match fuel with
  | 0 => none
  | fuel' + 1 =>
    let tail := s.tail
    match tail.ptr with
    | none => none
    | some ta =>
      match s.heap ta with
      | none => none
      | some tnode =>
        let next := tnode.next
        if tail = s.tail then
          if next.ptr = none then
            match cas tnode.next next (linkDesired nodeAddr next) with
            | (true, updated) =>
                some ({ s with
                          heap := heapUpdate s.heap ta { tnode with next := updated } },
                      tail)
            | (false, _) => enqueueLoop fuel' s nodeAddr
          else
            enqueueLoop fuel'
              { s with tail := (cas s.tail tail (tailAdvanceDesired next tail)).2 }
              nodeAddr
        else
          enqueueLoop fuel' s nodeAddr

/-- `Queue::enqueue` (lines 87-125): allocate the new node (line 90), run the
retry loop, then try once to swing `_tail` to the inserted node (line 121; the
CAS result is discarded, so the cell receives the CAS's resulting content
either way). -/
def enqueue (fuel : Nat) (s : QueueState T) (val : T) : Option (QueueState T) :=
  let nodeAddr := s.nextAlloc
  let s0 : QueueState T :=
    { s with
        heap := heapUpdate s.heap nodeAddr ⟨val, ⟨none, 0⟩⟩
        nextAlloc := nodeAddr + 1 }
  match enqueueLoop fuel s0 nodeAddr with
  | none => none
  | some (s1, tail) =>
      some { s1 with tail := (cas s1.tail tail (tailSwingDesired nodeAddr tail)).2 }

/-- The `while (true)` retry loop of `Queue::dequeue` (lines 132-167), with
explicit fuel.  Returns the state, whether a value was dequeued, the content
of the out-parameter `result`, and the final value of the local variable
`head` (used by the `delete` at line 170).  On the CAS failure at line 160 the
shared state is unchanged but `result` keeps the value written at line 157. -/
def dequeueLoop (fuel : Nat) (s : QueueState T) (result : T) :
    Option (QueueState T × Bool × T × NodePointer) :=
  match fuel with
  | 0 => none
  | fuel' + 1 =>
    let head := s.head
    let tail := s.tail
    match head.ptr with
    | none => none
    | some ha =>
      match s.heap ha with
      | none => none
      | some hnode =>
        let next := hnode.next
        if head = s.head then
          if head.ptr = tail.ptr then
            if next.ptr = none then
              some (s, false, result, head)
            else
              dequeueLoop fuel'
                { s with tail := (cas s.tail tail (tailAdvanceDesired next tail)).2 }
                result
          else
            match next.ptr with
            | none => none
            | some na =>
              match s.heap na with
              | none => none
              | some nnode =>
                let result1 := nnode.value
                match cas s.head head (headAdvanceDesired next head) with
                | (true, newHead) =>
                    some ({ s with head := newHead }, true, result1, head)
                | (false, _) => dequeueLoop fuel' s result1
        else
          dequeueLoop fuel' s result

/-- `Queue::dequeue` (lines 127-174): run the retry loop; on the empty path
(line 147) return `false` directly, otherwise `delete` the old dummy node
(line 170; `delete` of a null pointer is a no-op) and return `true`. -/
def dequeue (fuel : Nat) (s : QueueState T) (result : T) :
    Option (QueueState T × Bool × T) :=
  match dequeueLoop fuel s result with
  | none => none
  | some (s1, ok, res, head) =>
    if ok then
      match head.ptr with
      | none => some (s1, true, res)
      | some ha => some ({ s1 with heap := heapFree s1.heap ha }, true, res)
    else
      some (s1, false, res)

/-- `heap` links the addresses of `l` into a chain starting at `p` and ending
in a null next pointer: the abstract shape of the queue's linked list. -/
inductive Chain (heap : Nat → Option (Node T)) : Option Nat → List (Nat × Node T) → Prop
  | nil : Chain heap none []
  | cons {a : Nat} {n : Node T} {l : List (Nat × Node T)} :
      heap a = some n → Chain heap n.next.ptr l → Chain heap (some a) ((a, n) :: l)

/-- The queue values carried by a chain: the values of all nodes after the
sentinel (the first node's value is never observed). -/
def chainValues (l : List (Nat × Node T)) : List T :=
  (l.map fun p => p.2.value).tail

/-- Sequential state invariant: the state `s` represents the queue contents
`vs`.  The list reachable from `_head` is a strict chain ending in null,
`_tail` points at its last node, the chain's addresses are distinct and all
below the allocation counter, and the values after the sentinel are `vs`. -/
def Inv (s : QueueState T) (vs : List T) : Prop :=
  ∃ l ta tn,
    Chain s.heap s.head.ptr (l ++ [(ta, tn)]) ∧
    s.tail.ptr = some ta ∧
    ((l ++ [(ta, tn)]).map Prod.fst).Nodup ∧
    (∀ q ∈ l ++ [(ta, tn)], q.1 < s.nextAlloc) ∧
    vs = chainValues (l ++ [(ta, tn)])

/-- States reachable by single-threaded use of a freshly constructed queue. -/
inductive Reach (T : Type) : QueueState T → Prop
  | init (c0 : Int) (v0 : T) : Reach T (initState T c0 v0)
  | enq {s s' : QueueState T} {fuel : Nat} {v : T} :
      Reach T s → enqueue fuel s v = some s' → Reach T s'
  | deq {s s1 : QueueState T} {fuel : Nat} {r0 r : T} {ok : Bool} :
      Reach T s → dequeue fuel s r0 = some (s1, ok, r) → Reach T s1

/-! Basic facts about chains. -/

theorem chain_nil_ptr {heap : Nat → Option (Node T)} {p : Option Nat}
    (hc : Chain heap p []) : p = none := by
  cases hc; rfl

theorem chain_cons_elim {heap : Nat → Option (Node T)} {p : Option Nat}
    {a : Nat} {n : Node T} {l : List (Nat × Node T)}
    (hc : Chain heap p ((a, n) :: l)) :
    p = some a ∧ heap a = some n ∧ Chain heap n.next.ptr l := by
  cases hc with
  | cons ha hc' => exact ⟨rfl, ha, hc'⟩

theorem chain_mem_lookup {heap : Nat → Option (Node T)} {p : Option Nat}
    {l : List (Nat × Node T)} (hc : Chain heap p l) :
    ∀ q ∈ l, heap q.1 = some q.2 := by
  induction hc with
  | nil => intro q hq; simp at hq
  | cons ha _ ih =>
    intro q hq
    rcases List.mem_cons.mp hq with h | h
    · subst h; exact ha
    · exact ih q h

theorem chain_last_next {heap : Nat → Option (Node T)} :
    ∀ {l : List (Nat × Node T)} {p : Option Nat} {ta : Nat} {tn : Node T},
      Chain heap p (l ++ [(ta, tn)]) → tn.next.ptr = none := by
  intro l
  induction l with
  | nil =>
    intro p ta tn hc
    rw [List.nil_append] at hc
    obtain ⟨-, -, hc'⟩ := chain_cons_elim hc
    exact chain_nil_ptr hc'
  | cons q l' ih =>
    intro p ta tn hc
    obtain ⟨a, n⟩ := q
    rw [List.cons_append] at hc
    obtain ⟨-, -, hc'⟩ := chain_cons_elim hc
    exact ih hc'

theorem chain_frame_update {heap : Nat → Option (Node T)} {b : Nat} {nb : Node T}
    {p : Option Nat} {l : List (Nat × Node T)}
    (hc : Chain heap p l) (hne : ∀ q ∈ l, q.1 ≠ b) :
    Chain (heapUpdate heap b nb) p l := by
  induction hc with
  | nil => exact Chain.nil
  | @cons a n l' ha _ ih =>
    refine Chain.cons ?_ (ih fun q hq => hne q (List.mem_cons_of_mem _ hq))
    show heapUpdate heap b nb a = some n
    unfold heapUpdate
    rw [if_neg (hne (a, n) (List.mem_cons_self _ _))]
    exact ha

theorem chain_frame_free {heap : Nat → Option (Node T)} {b : Nat}
    {p : Option Nat} {l : List (Nat × Node T)}
    (hc : Chain heap p l) (hne : ∀ q ∈ l, q.1 ≠ b) :
    Chain (heapFree heap b) p l := by
  induction hc with
  | nil => exact Chain.nil
  | @cons a n l' ha _ ih =>
    refine Chain.cons ?_ (ih fun q hq => hne q (List.mem_cons_of_mem _ hq))
    show heapFree heap b a = some n
    unfold heapFree
    rw [if_neg (hne (a, n) (List.mem_cons_self _ _))]
    exact ha

theorem chain_extend {heap : Nat → Option (Node T)} {ta : Nat} {tn tn' : Node T}
    {b : Nat} {nb : Node T}
    (htn' : tn'.next.ptr = some b) (hbta : b ≠ ta)
    (hb : heap b = some nb) (hnb : nb.next.ptr = none) :
    ∀ {l : List (Nat × Node T)} {p : Option Nat},
      Chain heap p (l ++ [(ta, tn)]) → (∀ q ∈ l, q.1 ≠ ta) →
      Chain (heapUpdate heap ta tn') p (l ++ [(ta, tn'), (b, nb)]) := by
  intro l
  induction l with
  | nil =>
    intro p hc _
    rw [List.nil_append] at hc
    obtain ⟨hp, -, -⟩ := chain_cons_elim hc
    subst hp
    rw [List.nil_append]
    refine Chain.cons ?_ ?_
    · show heapUpdate heap ta tn' ta = some tn'
      unfold heapUpdate
      rw [if_pos rfl]
    · rw [htn']
      refine Chain.cons ?_ ?_
      · show heapUpdate heap ta tn' b = some nb
        unfold heapUpdate
        rw [if_neg hbta]
        exact hb
      · rw [hnb]
        exact Chain.nil
  | cons q l' ih =>
    intro p hc hne
    obtain ⟨a, n⟩ := q
    rw [List.cons_append] at hc
    obtain ⟨hp, ha, hc'⟩ := chain_cons_elim hc
    subst hp
    rw [List.cons_append]
    refine Chain.cons ?_ (ih hc' fun q hq => hne q (List.mem_cons_of_mem _ hq))
    show heapUpdate heap ta tn' a = some n
    unfold heapUpdate
    rw [if_neg (hne (a, n) (List.mem_cons_self _ _))]
    exact ha

theorem chainValues_append_last (l : List (Nat × Node T)) (p q : Nat × Node T) :
    chainValues ((l ++ [p]) ++ [q]) = chainValues (l ++ [p]) ++ [q.2.value] := by
  cases l <;> simp [chainValues]

theorem chainValues_last_congr (l : List (Nat × Node T)) (ta : Nat)
    (tn tn' : Node T) (h : tn'.value = tn.value) :
    chainValues (l ++ [(ta, tn')]) = chainValues (l ++ [(ta, tn)]) := by
  simp [chainValues, h]

/-! The invariant holds for the freshly constructed queue. -/

theorem inv_init (c0 : Int) (v0 : T) : Inv (initState T c0 v0) [] := by
  refine ⟨[], 0, ⟨v0, ⟨none, c0⟩⟩, ?_, rfl, by simp, by simp [initState], rfl⟩
  rw [List.nil_append]
  exact Chain.cons rfl Chain.nil

/-! Single sequential iterations of the two retry loops.  Under the
sequential semantics every consistency check and CAS compares a snapshot
against an unchanged cell, so the first loop iteration already finishes the
operation, whatever fuel remains. -/

theorem cas_self (c d : NodePointer) : cas c c d = (true, d) := by
  simp [cas]

theorem enqueueLoop_step {s : QueueState T} {ta : Nat} {tnode : Node T}
    {nodeAddr : Nat}
    (htail : s.tail.ptr = some ta)
    (hlook : s.heap ta = some tnode)
    (hnext : tnode.next.ptr = none) :
    ∀ fuel, enqueueLoop (fuel + 1) s nodeAddr =
      some ({ s with
                heap := heapUpdate s.heap ta
                  { tnode with next := linkDesired nodeAddr tnode.next } },
            s.tail) := by
  intro fuel
  simp only [enqueueLoop, htail, hlook, hnext, cas_self, if_true, if_pos rfl]

theorem dequeueLoop_step_empty {s : QueueState T} {ha : Nat} {hnode : Node T}
    (r : T)
    (hhead : s.head.ptr = some ha)
    (htail : s.tail.ptr = some ha)
    (hlook : s.heap ha = some hnode)
    (hnext : hnode.next.ptr = none) :
    ∀ fuel, dequeueLoop (fuel + 1) s r = some (s, false, r, s.head) := by
  intro fuel
  simp only [dequeueLoop, hhead, htail, hlook, hnext, if_true, if_pos rfl]

theorem dequeueLoop_step_cons {s : QueueState T} {ha na : Nat}
    {hnode nnode : Node T} (r : T)
    (hhead : s.head.ptr = some ha)
    (hne : s.head.ptr ≠ s.tail.ptr)
    (hlook : s.heap ha = some hnode)
    (hnext : hnode.next.ptr = some na)
    (hlookn : s.heap na = some nnode) :
    ∀ fuel, dequeueLoop (fuel + 1) s r =
      some ({ s with head := headAdvanceDesired hnode.next s.head },
            true, nnode.value, s.head) := by
  intro fuel
  have hne2 : ¬(some ha = s.tail.ptr) := by
    rw [← hhead]
    exact hne
  simp [dequeueLoop, hhead, hlook, hnext, hlookn, hne2, cas_self]

theorem enqueue_zero (s : QueueState T) (v : T) : enqueue 0 s v = none := rfl

theorem dequeue_zero (s : QueueState T) (r : T) : dequeue 0 s r = none := rfl

theorem nodup_concat_notmem {xs : List Nat} {a : Nat} (h : (xs ++ [a]).Nodup) :
    ∀ x ∈ xs, x ≠ a := by
  intro x hx he
  rcases List.nodup_append.mp h with ⟨-, -, hdisj⟩
  exact hdisj hx (by simp [he])

/-! The sequential specifications of `enqueue` and `dequeue` with respect to
the list abstraction. -/

theorem enqueue_total {s : QueueState T} {vs : List T} (v : T) (h : Inv s vs) :
    ∃ s', (∀ fuel, enqueue (fuel + 1) s v = some s') ∧ Inv s' (vs ++ [v]) := by
  obtain ⟨l, ta, tn, hchain, htail, hnodup, hbound, hvs⟩ := h
  have htab : ta < s.nextAlloc := hbound (ta, tn) (by simp)
  have htane : ta ≠ s.nextAlloc := Nat.ne_of_lt htab
  have hchain0 :
      Chain (heapUpdate s.heap s.nextAlloc ⟨v, ⟨none, 0⟩⟩) s.head.ptr
        (l ++ [(ta, tn)]) :=
    chain_frame_update hchain fun q hq => Nat.ne_of_lt (hbound q hq)
  have hlook0 :
      heapUpdate s.heap s.nextAlloc (⟨v, ⟨none, 0⟩⟩ : Node T) ta = some tn := by
    unfold heapUpdate
    rw [if_neg htane]
    exact chain_mem_lookup hchain (ta, tn) (by simp)
  have hlast : tn.next.ptr = none := chain_last_next hchain
  refine ⟨{ heap := heapUpdate (heapUpdate s.heap s.nextAlloc ⟨v, ⟨none, 0⟩⟩) ta
              { tn with next := linkDesired s.nextAlloc tn.next }
            nextAlloc := s.nextAlloc + 1
            head := s.head
            tail := tailSwingDesired s.nextAlloc s.tail }, ?_, ?_⟩
  · intro fuel
    simp only [enqueue]
    rw [enqueueLoop_step
      (s := { s with
                heap := heapUpdate s.heap s.nextAlloc ⟨v, ⟨none, 0⟩⟩
                nextAlloc := s.nextAlloc + 1 })
      htail hlook0 hlast fuel]
    simp [cas_self]
  · refine ⟨l ++ [(ta, { tn with next := linkDesired s.nextAlloc tn.next })],
      s.nextAlloc, ⟨v, ⟨none, 0⟩⟩, ?_, rfl, ?_, ?_, ?_⟩
    · show Chain _ s.head.ptr _
      rw [List.append_assoc]
      refine chain_extend rfl (Ne.symm htane) ?_ rfl hchain0 ?_
      · unfold heapUpdate
        rw [if_pos rfl]
      · intro q hq
        have := nodup_concat_notmem (by simpa using hnodup) q.1
          (List.mem_map_of_mem Prod.fst hq)
        exact this
    · simp only [List.map_append, List.map_cons, List.map_nil]
      have hx : ∀ x ∈ (l.map Prod.fst) ++ [ta], x ≠ s.nextAlloc := by
        intro x hx
        have : ∃ q ∈ l ++ [(ta, tn)], q.1 = x := by
          rcases List.mem_append.mp hx with h | h
          · rcases List.mem_map.mp h with ⟨q, hq, rfl⟩
            exact ⟨q, List.mem_append_left _ hq, rfl⟩
          · simp at h
            exact ⟨(ta, tn), by simp, h.symm⟩
        obtain ⟨q, hq, rfl⟩ := this
        exact Nat.ne_of_lt (hbound q hq)
      rw [List.nodup_append]
      refine ⟨by simpa using hnodup, List.nodup_singleton _, ?_⟩
      intro x hxm hxs
      simp at hxs
      exact hx x hxm hxs
    · intro q hq
      rcases List.mem_append.mp hq with h | h
      · rcases List.mem_append.mp h with h | h
        · exact Nat.lt_succ_of_lt (hbound q (List.mem_append_left _ h))
        · simp at h
          subst h
          exact Nat.lt_succ_of_lt htab
      · simp at h
        subst h
        exact Nat.lt_succ_self _
    · rw [chainValues_append_last,
        chainValues_last_congr l ta tn { tn with next := linkDesired s.nextAlloc tn.next } rfl,
        ← hvs]

theorem dequeue_empty_eq {s : QueueState T} (r : T) (h : Inv s []) :
    ∀ fuel, dequeue (fuel + 1) s r = some (s, false, r) := by
  obtain ⟨l, ta, tn, hchain, htail, hnodup, hbound, hvs⟩ := h
  have hl : l = [] := by
    cases l with
    | nil => rfl
    | cons q l' =>
      exfalso
      have := congrArg List.length hvs
      simp [chainValues] at this
  subst hl
  rw [List.nil_append] at hchain
  obtain ⟨hhead, hlook, hrest⟩ := chain_cons_elim hchain
  have hnext : tn.next.ptr = none := chain_nil_ptr hrest
  intro fuel
  simp only [dequeue]
  rw [dequeueLoop_step_empty r hhead htail hlook hnext fuel]
  simp

theorem dequeue_cons_eq {s : QueueState T} {v : T} {vs : List T} (r : T)
    (h : Inv s (v :: vs)) :
    ∃ s', (∀ fuel, dequeue (fuel + 1) s r = some (s', true, v)) ∧ Inv s' vs := by
  obtain ⟨l, ta, tn, hchain, htail, hnodup, hbound, hvs⟩ := h
  cases l with
  | nil =>
    exfalso
    have := congrArg List.length hvs
    simp [chainValues] at this
  | cons q0 l1 =>
    obtain ⟨sa, sn⟩ := q0
    rw [List.cons_append] at hchain hnodup hbound hvs
    obtain ⟨hhead, hlook, hrest⟩ := chain_cons_elim hchain
    have hM : ∃ q1 rest, l1 ++ [(ta, tn)] = q1 :: rest := by
      cases hM : l1 ++ [(ta, tn)] with
      | nil => exact absurd hM (by simp)
      | cons q1 rest => exact ⟨q1, rest, rfl⟩
    obtain ⟨q1, rest, hMeq⟩ := hM
    have hrestM := hrest
    rw [hMeq] at hrest
    obtain ⟨hnext, hlookn, -⟩ := chain_cons_elim hrest
    have hsa_notmem : ∀ x ∈ (l1 ++ [(ta, tn)]).map Prod.fst, x ≠ sa := by
      intro x hx he
      have hnd := hnodup
      rw [List.map_cons, List.nodup_cons] at hnd
      exact hnd.1 (he ▸ hx)
    have hne : s.head.ptr ≠ s.tail.ptr := by
      rw [hhead, htail]
      intro hcon
      have : sa = ta := by simpa using hcon
      exact hsa_notmem ta (by simp) this.symm
    have hvals : q1.2.value = v ∧ vs = chainValues (l1 ++ [(ta, tn)]) := by
      have hthis : v :: vs = (l1 ++ [(ta, tn)]).map fun p => p.2.value := by
        simpa [chainValues] using hvs
      rw [hMeq, List.map_cons] at hthis
      injection hthis with h1 h2
      refine ⟨h1.symm, ?_⟩
      rw [h2, chainValues, hMeq, List.map_cons, List.tail_cons]
    refine ⟨{ s with head := headAdvanceDesired sn.next s.head
                     heap := heapFree s.heap sa }, ?_, ?_⟩
    · intro fuel
      simp only [dequeue]
      rw [dequeueLoop_step_cons r hhead hne hlook hnext hlookn fuel]
      simp [hhead, hvals.1]
    · refine ⟨l1, ta, tn, ?_, htail, ?_, ?_, hvals.2⟩
      · show Chain (heapFree s.heap sa) (headAdvanceDesired sn.next s.head).ptr _
        have hp : (headAdvanceDesired sn.next s.head).ptr = sn.next.ptr := rfl
        rw [hp]
        exact chain_frame_free hrestM fun q hq =>
          hsa_notmem q.1 (List.mem_map_of_mem Prod.fst hq)
      · rw [List.map_cons, List.nodup_cons] at hnodup
        exact hnodup.2
      · intro q hq
        exact hbound q (List.mem_cons_of_mem _ hq)

/-- Every state reachable by single-threaded use satisfies the invariant for
some list of contents: the sequential abstraction is total on reachable
states. -/
theorem reach_inv {s : QueueState T} (h : Reach T s) : ∃ vs, Inv s vs := by
  induction h with
  | init c0 v0 => exact ⟨[], inv_init c0 v0⟩
  | @enq s s' fuel v _ he ih =>
    obtain ⟨vs, hinv⟩ := ih
    obtain ⟨s'', hs'', hinv'⟩ := enqueue_total v hinv
    cases fuel with
    | zero =>
      rw [enqueue_zero] at he
      exact absurd he (by simp)
    | succ f =>
      rw [hs'' f] at he
      have heq : s'' = s' := Option.some.inj he
      exact ⟨vs ++ [v], heq ▸ hinv'⟩
  | @deq s s1 fuel r0 r ok _ hd ih =>
    obtain ⟨vs, hinv⟩ := ih
    cases fuel with
    | zero =>
      rw [dequeue_zero] at hd
      exact absurd hd (by simp)
    | succ f =>
      cases vs with
      | nil =>
        rw [dequeue_empty_eq r0 hinv f] at hd
        simp only [Option.some.injEq, Prod.mk.injEq] at hd
        obtain ⟨rfl, -, -⟩ := hd
        exact ⟨[], hinv⟩
      | cons v vs' =>
        obtain ⟨s', hs', hinv'⟩ := dequeue_cons_eq r0 hinv
        rw [hs' f] at hd
        simp only [Option.some.injEq, Prod.mk.injEq] at hd
        obtain ⟨rfl, -, -⟩ := hd
        exact ⟨vs', hinv'⟩

/-- In the sequential semantics a dequeue retry loop that ends by reporting
empty has never executed the value read of line 157: the out-parameter content
it returns is the content it was given.  (The head CAS of line 160, compared
against an unchanged cell, cannot fail sequentially, so the value-overwriting
retry path is unreachable.) -/
theorem dequeueLoop_false_result :
    ∀ (fuel : Nat) (s : QueueState T) (r : T) (s1 : QueueState T) (r1 : T)
      (hd : NodePointer),
      dequeueLoop fuel s r = some (s1, false, r1, hd) → r1 = r := by
  intro fuel
  induction fuel with
  | zero =>
    intro s r s1 r1 hd h
    exact absurd h (by simp [dequeueLoop])
  | succ n ih =>
    intro s r s1 r1 hd h
    simp only [dequeueLoop, cas_self] at h
    repeat' split at h
    all_goals
      first
        | exact Option.noConfusion h
        | exact ih _ _ _ _ _ h
        | (simp only [Option.some.injEq, Prod.mk.injEq] at h
           exact h.2.2.1.symm)
        | (simp only [Option.some.injEq, Prod.mk.injEq] at h
           exact absurd h.2.1 (by simp))

/-! The claims. -/

/-- Claim C1: under single-threaded sequential use values come out in FIFO
order: after enqueue(1); enqueue(2); enqueue(3) on a fresh queue the next
three dequeue calls return 1, then 2, then 3, and a fourth dequeue reports
empty.  `c0` and `v0` are the indeterminate contents of the sentinel's two
uninitialized members, so this holds for every fresh queue. -/
theorem sequential_fifo (c0 : Int) (v0 : Int) :
    ∃ s1 s2 s3 t1 t2 t3,
      enqueue 1 (initState Int c0 v0) 1 = some s1 ∧
      enqueue 1 s1 2 = some s2 ∧
      enqueue 1 s2 3 = some s3 ∧
      dequeue 1 s3 0 = some (t1, true, 1) ∧
      dequeue 1 t1 0 = some (t2, true, 2) ∧
      dequeue 1 t2 0 = some (t3, true, 3) ∧
      dequeue 1 t3 0 = some (t3, false, 0) := by
  obtain ⟨s1, hs1, hi1⟩ := enqueue_total 1 (inv_init (T := Int) c0 v0)
  obtain ⟨s2, hs2, hi2⟩ := enqueue_total 2 hi1
  obtain ⟨s3, hs3, hi3⟩ := enqueue_total 3 hi2
  have hi3' : Inv s3 [1, 2, 3] := by simpa using hi3
  obtain ⟨t1, hd1, hj1⟩ := dequeue_cons_eq 0 hi3'
  obtain ⟨t2, hd2, hj2⟩ := dequeue_cons_eq 0 hj1
  obtain ⟨t3, hd3, hj3⟩ := dequeue_cons_eq 0 hj2
  have hd4 := dequeue_empty_eq 0 hj3
  exact ⟨s1, s2, s3, t1, t2, t3, hs1 0, hs2 0, hs3 0, hd1 0, hd2 0, hd3 0, hd4 0⟩

/-- Claim C2: for a queue state holding the not-yet-dequeued values `vs`
(every sequentially reachable state holds some such list, by `reach_inv`),
dequeue returns a defined outcome in which the report of emptiness (`false`)
holds iff `vs` is empty, and a successful dequeue yields the oldest
not-yet-dequeued value, the head of `vs`. -/
theorem dequeue_empty_iff_oldest (fuel : Nat) (s : QueueState T) (vs : List T)
    (r : T) (h : Inv s vs) :
    ∃ s' ok r', dequeue (fuel + 1) s r = some (s', ok, r') ∧
      (ok = false ↔ vs = []) ∧ (ok = true → vs.head? = some r') := by
  cases vs with
  | nil => exact ⟨s, false, r, dequeue_empty_eq r h fuel, by simp, by simp⟩
  | cons v vs' =>
    obtain ⟨s', hs', -⟩ := dequeue_cons_eq r h
    exact ⟨s', true, v, hs' fuel, by simp, by simp⟩

theorem dequeue_empty_iff_oldest_witness :
    ∃ s' ok r', dequeue (0 + 1) (initState Int 0 0) 0 = some (s', ok, r') ∧
      (ok = false ↔ ([] : List Int) = []) ∧
      (ok = true → ([] : List Int).head? = some r') :=
  dequeue_empty_iff_oldest 0 (initState Int 0 0) [] 0 (inv_init 0 0)

/-- Claim C3: round trip — for every value v and every state reachable by
single-threaded use of an initially empty queue that holds no pending
elements, enqueue(v) immediately followed by dequeue() succeeds and returns
exactly v. -/
theorem round_trip (s : QueueState T) (v r : T) (_hr : Reach T s)
    (he : Inv s []) :
    ∃ s' s'', (∀ fuel, enqueue (fuel + 1) s v = some s') ∧
      (∀ fuel, dequeue (fuel + 1) s' r = some (s'', true, v)) := by
  obtain ⟨s', hs', hinv'⟩ := enqueue_total v he
  have hinv1 : Inv s' [v] := by simpa using hinv'
  obtain ⟨s'', hs'', -⟩ := dequeue_cons_eq r hinv1
  exact ⟨s', s'', hs', hs''⟩

theorem round_trip_witness :
    ∃ s' s'', (∀ fuel, enqueue (fuel + 1) (initState Int 0 0) 5 = some s') ∧
      (∀ fuel, dequeue (fuel + 1) s' 0 = some (s'', true, 5)) :=
  round_trip (initState Int 0 0) 5 0 (Reach.init 0 0) (inv_init 0 0)

/-- Claim C5, counterexample: the constructor does not establish a sentinel
next field equal to the tagged pointer (null, 0).  `new Node<T>()` leaves the
`count` member of the sentinel's next field uninitialized (`NodePointer()` at
line 56 sets only `ptr`); when the indeterminate value that member holds is 1
the freshly constructed queue's sentinel next field is (null, 1), not
(null, 0). -/
theorem construction_sentinel_count_cex :
    ∃ n : Node Int, (initState Int 1 0).heap 0 = some n ∧
      n.next ≠ (⟨none, 0⟩ : NodePointer) :=
  ⟨⟨0, ⟨none, 1⟩⟩, rfl, by decide⟩

/-- Claim C5 (amended): construction allocates exactly one node, the
sentinel; both head and tail are set to the tagged pointer (sentinel, 0); the
sentinel's next field has a null reference, but its generation is whatever
indeterminate value `c0` the uninitialized count member holds (the default
`NodePointer` constructor sets only `ptr`), not necessarily 0. -/
theorem construction_state (T : Type) (c0 : Int) (v0 : T) :
    (initState T c0 v0).head = ⟨some 0, 0⟩ ∧
    (initState T c0 v0).tail = ⟨some 0, 0⟩ ∧
    (initState T c0 v0).heap 0 = some ⟨v0, ⟨none, c0⟩⟩ ∧
    (∀ a, a ≠ 0 → (initState T c0 v0).heap a = none) ∧
    (initState T c0 v0).nextAlloc = 1 := by
  refine ⟨rfl, rfl, rfl, ?_, rfl⟩
  intro a ha
  simp [initState, heapUpdate, ha]

theorem construction_state_witness : (initState Int 5 7).heap 3 = none :=
  (construction_state Int 5 7).2.2.2.1 3 (by decide)

/-- Claim C6: for every element type T the first dequeue on a freshly
constructed queue returns false (empty) and changes nothing.  The result is
defined (`some`), and in this embedding any dereference past the sentinel
would hit an unmapped address and produce `none`, so the call dereferences no
node beyond the sentinel. -/
theorem empty_start (T : Type) (c0 : Int) (v0 r : T) (fuel : Nat) :
    dequeue (fuel + 1) (initState T c0 v0) r =
      some (initState T c0 v0, false, r) :=
  dequeue_empty_eq r (inv_init c0 v0) fuel

/-- Claim C7: each CAS site that installs a new successor into a
tagged-pointer cell — the link CAS of enqueue (line 107), the cooperative
tail advance of enqueue (line 115) and dequeue (line 151), the post-loop tail
swing of enqueue (line 121), and the head advance of dequeue (line 160) —
uses a desired value whose generation is one more than the generation of the
expected value it read from that cell, so whenever such a CAS succeeds the
cell's stored generation becomes exactly its previous value plus one:
strictly increasing across successful structural writes. -/
theorem generation_strictly_increases (cell expected np : NodePointer)
    (a : Nat) :
    ((cas cell expected (linkDesired a expected)).1 = true →
      (cas cell expected (linkDesired a expected)).2.count = cell.count + 1) ∧
    ((cas cell expected (tailAdvanceDesired np expected)).1 = true →
      (cas cell expected (tailAdvanceDesired np expected)).2.count
        = cell.count + 1) ∧
    ((cas cell expected (tailSwingDesired a expected)).1 = true →
      (cas cell expected (tailSwingDesired a expected)).2.count
        = cell.count + 1) ∧
    ((cas cell expected (headAdvanceDesired np expected)).1 = true →
      (cas cell expected (headAdvanceDesired np expected)).2.count
        = cell.count + 1) := by
  unfold cas linkDesired tailAdvanceDesired tailSwingDesired headAdvanceDesired
  by_cases h : cell = expected <;> simp [h]

theorem generation_strictly_increases_witness :
    (cas ⟨some 4, 3⟩ ⟨some 4, 3⟩ (linkDesired 6 ⟨some 4, 3⟩)).2.count
      = (3 : Int) + 1 :=
  (generation_strictly_increases ⟨some 4, 3⟩ ⟨some 4, 3⟩ ⟨some 6, 0⟩ 6).1
    (by decide)

/-- Claim C8: `NodePointer::operator=(Node<T>*)` writes only the reference
field: after the assignment the reference equals the assigned pointer and the
generation equals the value the destination held before. -/
theorem assign_ptr_frame (tp : NodePointer) (p : Option Nat) :
    (tp.assignPtr p).ptr = p ∧ (tp.assignPtr p).count = tp.count :=
  ⟨rfl, rfl⟩

/-- Claim C9: on a reachable queue state that holds no elements (a queue
drained to empty), dequeue returns false and returns the very same state —
head and tail in particular are exactly as they were — so every subsequent
dequeue keeps reporting empty on the unchanged state. -/
theorem drained_dequeue_noop (fuel : Nat) (s : QueueState T) (r : T)
    (_hr : Reach T s) (he : Inv s []) :
    dequeue (fuel + 1) s r = some (s, false, r) :=
  dequeue_empty_eq r he fuel

theorem drained_dequeue_noop_witness :
    dequeue (0 + 1) (initState Int 0 0) 0 =
      some (initState Int 0 0, false, 0) :=
  drained_dequeue_noop 0 (initState Int 0 0) 0 (Reach.init 0 0) (inv_init 0 0)

/-- Claim C10: whenever dequeue returns false (queue observed empty) the
caller-supplied out-parameter is not written: the result content after the
call equals the content before it. -/
theorem dequeue_false_result_unchanged (fuel : Nat) (s : QueueState T)
    (r : T) (s1 : QueueState T) (r1 : T)
    (h : dequeue fuel s r = some (s1, false, r1)) : r1 = r := by
  unfold dequeue at h
  cases hd : dequeueLoop fuel s r with
  | none =>
    rw [hd] at h
    exact Option.noConfusion h
  | some out =>
    obtain ⟨s2, ok, res, hs⟩ := out
    rw [hd] at h
    cases ok with
    | false =>
      simp only [Bool.false_eq_true, if_false, Option.some.injEq,
        Prod.mk.injEq] at h
      rw [← h.2.2]
      exact dequeueLoop_false_result fuel s r s2 res hs hd
    | true =>
      exfalso
      cases hp : hs.ptr with
      | none => simp [hp] at h
      | some ha => simp [hp] at h

theorem dequeue_false_result_unchanged_witness : (7 : Int) = 7 :=
  dequeue_false_result_unchanged 1 (initState Int 0 0) 7 (initState Int 0 0)
    7 rfl

end MSQueue
